import Mathlib

/-!
The osm package, `utils.go`: name normalisation, field resolution, row
scanning and the value-kind predicate.

A shallow embedding of `toGoNames`, `findFiled`, `scanRow` and `isValueKind`
from `utils.go`.

Go strings and `[]byte` values are lists of bytes; a byte is a natural number
(the only byte arithmetic in the source, `d - 32` and `d + 32`, is guarded by
range tests, so it neither underflows nor leaves the byte range).  Indexing and
slicing of the two fixed-size buffers are checked operations returning
`Option`: `none` stands for the Go run-time panic on an out-of-range access.

`scanRow` works on three collaborators that are not in `utils.go`: the read
`rows.Scan`, `reflect.Type.Elem` and `convertAssign`.  They are parameters of
the model, and the model records the calls made to them, in order, next to the
returned error and the state of the destinations.  `Elem` and `convertAssign`
can panic; `scanRow` has no `recover`, so their panic is a panic of `scanRow`.
-/

namespace Osm

/-- A Go `byte`. -/
abbrev Byte := Nat

/-- The bytes of an ASCII string literal. -/
def bytes (s : String) : List Byte := s.toList.map Char.toNat

/-- The byte `'_'`. -/
abbrev underscore : Byte := 95

/-- The table `commonInitialisms` of `utils.go` (a `map[string][]byte` literal),
as the list of its entries in source order. -/
def commonInitialisms : List (List Byte × List Byte) :=
  [ (bytes "Acl", bytes "ACL"),
    (bytes "Api", bytes "API"),
    (bytes "Ascii", bytes "ASCII"),
    (bytes "Cpu", bytes "CPU"),
    (bytes "Css", bytes "CSS"),
    (bytes "Dns", bytes "DNS"),
    (bytes "Eof", bytes "EOF"),
    (bytes "Guid", bytes "GUID"),
    (bytes "Html", bytes "HTML"),
    (bytes "Http", bytes "HTTP"),
    (bytes "Https", bytes "HTTPS"),
    (bytes "Id", bytes "ID"),
    (bytes "Ip", bytes "IP"),
    (bytes "Json", bytes "JSON"),
    (bytes "Lhs", bytes "LHS"),
    (bytes "Qps", bytes "QPS"),
    (bytes "Ram", bytes "RAM"),
    (bytes "Rhs", bytes "RHS"),
    (bytes "Rpc", bytes "RPC"),
    (bytes "Sla", bytes "SLA"),
    (bytes "Smtp", bytes "SMTP"),
    (bytes "Sql", bytes "SQL"),
    (bytes "Ssh", bytes "SSH"),
    (bytes "Tcp", bytes "TCP"),
    (bytes "Tls", bytes "TLS"),
    (bytes "Ttl", bytes "TTL"),
    (bytes "Udp", bytes "UDP"),
    (bytes "Ui", bytes "UI"),
    (bytes "Uid", bytes "UID"),
    (bytes "Uuid", bytes "UUID"),
    (bytes "Uri", bytes "URI"),
    (bytes "Url", bytes "URL"),
    (bytes "Utf8", bytes "UTF8"),
    (bytes "Vm", bytes "VM"),
    (bytes "Xml", bytes "XML"),
    (bytes "Xmpp", bytes "XMPP"),
    (bytes "Xsrf", bytes "XSRF"),
    (bytes "Xss", bytes "XSS") ]

/-- The Go statement `buf[i] = b`: a panic (`none`) unless `i < len(buf)`. -/
def writeAt (buf : List Byte) (i : Nat) (b : Byte) : Option (List Byte) :=
  if i < buf.length then some (buf.set i b) else none

/-- The Go expression `buf[lo:hi]`: a panic (`none`) unless
`lo <= hi <= len(buf)`. -/
def sliceOf (buf : List Byte) (lo hi : Nat) : Option (List Byte) :=
  if lo ≤ hi ∧ hi ≤ buf.length then some ((buf.drop lo).take (hi - lo)) else none

/-- The loop `for j, b := range word { dataSpecial[firstPoint+j] = b }`,
started at index `j`. -/
def overwrite (dataSpecial : List Byte) (firstPoint : Nat) :
    Nat → List Byte → Option (List Byte)
  | _, [] => some dataSpecial
  | j, b :: word =>
    (writeAt dataSpecial (firstPoint + j) b).bind fun ds =>
      overwrite ds firstPoint (j + 1) word

/-- The local variables of `toGoNames` that the loop updates. -/
structure Vars where
  data : List Byte
  dataSpecial : List Byte
  point : Nat
  isFirst : Bool
  firstPoint : Nat
deriving DecidableEq

/-- The block
`word, ok := commonInitialisms[string(data[firstPoint:point])]; if ok { ... }`,
which occurs twice in `toGoNames`; the result is the new `dataSpecial`. -/
def lookupSegment (v : Vars) : Option (List Byte) :=
  (sliceOf v.data v.firstPoint v.point).bind fun key =>
    match commonInitialisms.lookup key with
    | some word => overwrite v.dataSpecial v.firstPoint 0 word
    | none => some v.dataSpecial

/-- One iteration of the `for i` loop of `toGoNames`, on the byte `d = name[i]`. -/
def step (v : Vars) (d : Byte) : Option Vars :=
  if d = underscore then
    (lookupSegment v).bind fun ds =>
      some { v with dataSpecial := ds, isFirst := true, firstPoint := v.point }
  else
    let d :=
      if v.isFirst then
        (if d ≥ 97 ∧ d ≤ 122 then d - 32 else d)
      else
        (if d ≥ 65 ∧ d ≤ 90 then d + 32 else d)
    (writeAt v.data v.point d).bind fun data =>
      (writeAt v.dataSpecial v.point d).bind fun dataSpecial =>
        some { data := data, dataSpecial := dataSpecial, point := v.point + 1,
               isFirst := false, firstPoint := v.firstPoint }

/-- The `for i` loop of `toGoNames` over the remaining bytes of `name`. -/
def loop (v : Vars) : List Byte → Option Vars
  | [] => some v
  | d :: rest => (step v d).bind fun v => loop v rest

/-- The statements of `toGoNames` after the `for i` loop: the lookup of the
final segment and `return string(data[:point]), string(dataSpecial[:point])`. -/
def finish (v : Vars) : Option (List Byte × List Byte) :=
  (lookupSegment v).bind fun ds =>
    (sliceOf v.data 0 v.point).bind fun a =>
      (sliceOf ds 0 v.point).bind fun b =>
        some (a, b)

/-- The declarations of `toGoNames` before the `for i` loop, for `num = len(name)`:
two zeroed buffers of length `num`, `point = 0`, `isFirst = true`,
`firstPoint = 0`. -/
def initVars (num : Nat) : Vars :=
  { data := List.replicate num 0, dataSpecial := List.replicate num 0,
    point := 0, isFirst := true, firstPoint := 0 }

/-- The function `toGoNames` of `utils.go`; `none` is a run-time panic. -/
def toGoNames (name : List Byte) : Option (List Byte × List Byte) :=
  let num := name.length
  (loop (initVars num) name).bind finish

/-- A Go `map[string]V`, as the list of its entries; `List.lookup` is the
two-result index expression `v, ok := m[key]`. -/
abbrev GoMap (V : Type) := List (List Byte × V)

/-- The function `findFiled` of `utils.go`.  A `*reflect.Type` is an
`Option τ`, with `none` for `nil`; the outer `none` is a run-time panic. -/
def findFiled {τ : Type} (allFieldNameTypeMap : GoMap (Option τ)) (name : List Byte) :
    Option (List Byte × Option τ) :=
  (toGoNames name).bind fun (a, b) =>
    match allFieldNameTypeMap.lookup a with
    | some t => some (a, t)
    | none =>
      match allFieldNameTypeMap.lookup b with
      | some t => some (b, t)
      | none => some ([], none)

/-! ## Vocabulary of the specification -/

/-- ASCII upper-casing of one byte. -/
def toUpper (b : Byte) : Byte := if 97 ≤ b ∧ b ≤ 122 then b - 32 else b

/-- ASCII lower-casing of one byte. -/
def toLower (b : Byte) : Byte := if 65 ≤ b ∧ b ≤ 90 then b + 32 else b

/-- The plain rendering of a segment: first byte upper-cased, later bytes
lower-cased. -/
def title : List Byte → List Byte
  | [] => []
  | b :: bs => toUpper b :: bs.map toLower

/-- The initialism rendering of a plain segment `t`: the table's value when `t`
is a key of `commonInitialisms`, and `t` otherwise. -/
def initialism (t : List Byte) : List Byte :=
  match commonInitialisms.lookup t with
  | some word => word
  | none => t

/-- The segments of a name: the name split at every `'_'`. -/
def segments (name : List Byte) : List (List Byte) := name.splitOn underscore

/-- The plain form of the specification. -/
def plainForm (name : List Byte) : List Byte :=
  ((segments name).map title).flatten

/-- The initialism form of the specification. -/
def initialismForm (name : List Byte) : List Byte :=
  ((segments name).map fun s => initialism (title s)).flatten

/-- Two bytes that are equal or are the two cases of one ASCII letter. -/
def SameLetter (a b : Byte) : Prop :=
  a = b ∨ (65 ≤ a ∧ a ≤ 90 ∧ b = a + 32) ∨ (65 ≤ b ∧ b ≤ 90 ∧ a = b + 32)

instance (a b : Byte) : Decidable (SameLetter a b) := by
  unfold SameLetter
  infer_instance

/-! ## Auxiliary definitions for the loop invariant -/

/-- The loop variables when the finished segments have produced `P` in `data`
and `S` in `dataSpecial`, the segment in progress has produced `c` in both, and
`k` buffer cells remain unwritten. -/
def varsAt (P S c : List Byte) (k : Nat) : Vars :=
  { data := P ++ c ++ List.replicate k 0,
    dataSpecial := S ++ c ++ List.replicate k 0,
    point := P.length + c.length,
    isFirst := decide (c = []),
    firstPoint := P.length }

/-- The plain rendering of a segment whose first part has already produced `c`
and whose remaining input bytes are `s`. -/
def extend (c s : List Byte) : List Byte :=
  c ++ (if c = [] then title s else s.map toLower)

/-! ## `isValueKind` -/

/-- Modelled from the spec: the type `reflect.Kind` of the Go standard library,
which `utils.go` imports; its constants, in the library's order. -/
inductive Kind where
  | Invalid | Bool | Int | Int8 | Int16 | Int32 | Int64
  | Uint | Uint8 | Uint16 | Uint32 | Uint64 | Uintptr
  | Float32 | Float64 | Complex64 | Complex128
  | Array | Chan | Func | Interface | Map | Ptr | Slice | String | Struct
  | UnsafePointer
deriving DecidableEq

/-- The function `isValueKind` of `utils.go`. -/
def isValueKind (kind : Kind) : Bool :=
  kind == Kind.Bool ||
    kind == Kind.Int ||
    kind == Kind.Int8 ||
    kind == Kind.Int16 ||
    kind == Kind.Int32 ||
    kind == Kind.Int64 ||
    kind == Kind.Uint ||
    kind == Kind.Uint8 ||
    kind == Kind.Uint16 ||
    kind == Kind.Uint32 ||
    kind == Kind.Uint64 ||
    kind == Kind.Uintptr ||
    kind == Kind.Float32 ||
    kind == Kind.Float64 ||
    kind == Kind.Complex64 ||
    kind == Kind.Complex128 ||
    kind == Kind.String ||
    kind == Kind.Struct

/-! ## `scanRow` -/

/-- The Go statement `xs[i] = x` on a slice of any element type: a panic
(`none`) unless `i < len(xs)`. -/
def assignAt {α : Type} (xs : List α) (i : Nat) (x : α) : Option (List α) :=
  if i < xs.length then some (xs.set i x) else none

/-- What `scanRow` does to its collaborators, in order: the call
`rows.Scan(refs...)` with the holders passed, and each call
`convertAssign(dest, src, isPtr, t)` with its four arguments.  A raw value
(`interface{}`) is an `Option ρ`, with `none` for `nil`; a holder
(`*interface{}`) is named by the index of the `new(interface{})` that
allocated it, and `none` is the nil pointer. -/
inductive Call (ρ Ty Val : Type) where
  | scan (refs : List (Option Nat))
  | convertAssign (dest : Val) (src : Option ρ) (isPtr : Bool) (t : Ty)
deriving DecidableEq

/-- The local slices `srcs`, `refs` and `types` of `scanRow`. -/
structure Locals (Ty : Type) where
  srcs : List (Option Nat)
  refs : List (Option Nat)
  types : List Ty
deriving DecidableEq

/-- One iteration of the first loop of `scanRow`, `for i, isPtr := range isPtrs`.
`elem` is `reflect.Type.Elem`, `none` being its panic; the holder allocated by
`new(interface{})` in iteration `i` is holder `i`. -/
def setupStep {Ty : Type} (elem : Ty → Option Ty) (elementTypes : List Ty)
    (l : Locals Ty) (i : Nat) (isPtr : Bool) : Option (Locals Ty) :=
  elementTypes[i]?.bind fun t0 =>
    (assignAt l.types i t0).bind fun types =>
      (if isPtr then
        elementTypes[i]?.bind fun t1 =>
          (elem t1).bind fun t => assignAt types i t
      else some types).bind fun types =>
        (assignAt l.refs i (some i)).bind fun refs =>
          (assignAt l.srcs i (some i)).bind fun srcs =>
            some { srcs := srcs, refs := refs, types := types }

/-- The first loop of `scanRow`, from index `i` on. -/
def setupLoop {Ty : Type} (elem : Ty → Option Ty) (elementTypes : List Ty) :
    Nat → List Bool → Locals Ty → Option (Locals Ty)
  | _, [], l => some l
  | i, isPtr :: rest, l =>
    (setupStep elem elementTypes l i isPtr).bind fun l =>
      setupLoop elem elementTypes (i + 1) rest l

/-- The second loop of `scanRow`, `for i, src := range srcs`, from index `i` on.
`holders h` is the content `*src` of holder `h` after the read; `dests` is the
state of the destinations, which only `convertAssign` changes.  A call of
`convertAssign` either panics (`none`), which unwinds `scanRow`, or returns
with the new state of the destinations and a result; the result is dropped,
as in the source. -/
def convertLoop {ρ Ty Val Err σ : Type}
    (convertAssign : Val → Option ρ → Bool → Ty → σ → Option (σ × Option Err))
    (values : List Val) (isPtrs : List Bool) (types : List Ty)
    (holders : Nat → Option ρ) :
    Nat → List (Option Nat) → σ → List (Call ρ Ty Val) →
      Option (σ × List (Call ρ Ty Val))
  | _, [], dests, calls => some (dests, calls)
  | i, src :: rest, dests, calls =>
    match src with
    | none => convertLoop convertAssign values isPtrs types holders (i + 1) rest dests calls
    | some h =>
      values[i]?.bind fun v =>
        isPtrs[i]?.bind fun p =>
          types[i]?.bind fun t =>
            (convertAssign v (holders h) p t dests).bind fun r =>
              convertLoop convertAssign values isPtrs types holders (i + 1) rest r.1
                (calls ++ [Call.convertAssign v (holders h) p t])

/-- What a run of `scanRow` leaves: the returned error (`none` for `nil`), the
state of the destinations, and the calls made. -/
structure Outcome (ρ Ty Val Err σ : Type) where
  err : Option Err
  dests : σ
  calls : List (Call ρ Ty Val)
deriving DecidableEq

/-- The declarations of `scanRow` before its first loop: three slices of length
`lenContainers` holding zero values. -/
def initLocals {Ty : Type} [Inhabited Ty] (lenContainers : Nat) : Locals Ty :=
  { srcs := List.replicate lenContainers none,
    refs := List.replicate lenContainers none,
    types := List.replicate lenContainers default }

/-- The function `scanRow` of `utils.go`; `none` is a run-time panic, its own
or one of `Elem` or `convertAssign`, which `scanRow` does not recover.
`rows refs` is the call `rows.Scan(refs...)`: its error and the contents of
the holders after it.  `elem` (`reflect.Type.Elem`) and `convertAssign` are
not in `utils.go` and are parameters. -/
def scanRow {ρ Ty Val Err σ : Type} [Inhabited Ty]
    (elem : Ty → Option Ty)
    (convertAssign : Val → Option ρ → Bool → Ty → σ → Option (σ × Option Err))
    (rows : List (Option Nat) → Option Err × (Nat → Option ρ))
    (isPtrs : List Bool) (elementTypes : List Ty) (values : List Val)
    (dests : σ) : Option (Outcome ρ Ty Val Err σ) :=
  let lenContainers := isPtrs.length
  (setupLoop elem elementTypes 0 isPtrs (initLocals lenContainers)).bind fun l =>
    match rows l.refs with
    | (some err, _) => some { err := some err, dests := dests, calls := [Call.scan l.refs] }
    | (none, holders) =>
      (convertLoop convertAssign values isPtrs l.types holders 0 l.srcs dests
          [Call.scan l.refs]).bind fun r =>
        some { err := none, dests := r.1, calls := r.2 }

/-- The element type `scanRow` hands to `convertAssign` for a column: the type
dereferenced one level when the column's flag is set. -/
def derefType {Ty : Type} (elem : Ty → Option Ty) (isPtr : Bool) (t : Ty) : Option Ty :=
  if isPtr then elem t else some t

/-- The state of the first loop of `scanRow` after the columns before `i`, whose
types are `ts`, with `k` columns to go. -/
def localsAt {Ty : Type} [Inhabited Ty] (ts : List Ty) (k : Nat) : Locals Ty :=
  { srcs := (List.range ts.length).map some ++ List.replicate k none,
    refs := (List.range ts.length).map some ++ List.replicate k none,
    types := ts ++ List.replicate k default }


/-- The types of the columns from index `i` on, as the first loop of `scanRow`
computes them; `none` when an index or `elem` panics. -/
def columnTypes {Ty : Type} (elem : Ty → Option Ty) (elementTypes : List Ty) :
    Nat → List Bool → Option (List Ty)
  | _, [] => some []
  | i, isPtr :: rest =>
    elementTypes[i]?.bind fun t0 =>
      (derefType elem isPtr t0).bind fun t =>
        (columnTypes elem elementTypes (i + 1) rest).map fun ts => t :: ts


/-- The columns that the second loop of `scanRow` converts, in order: the
destination, the flag and the type of each column. -/
abbrev Column (Ty Val : Type) := Val × Bool × Ty

/-- The state of the destinations after `convertAssign` has been called on the
given columns in order, the first one being column `i`, each call with the
content of the column's holder and on the state the call before it left;
`none` when one of the calls panics. -/
def convertColumns {ρ Ty Val Err σ : Type}
    (convertAssign : Val → Option ρ → Bool → Ty → σ → Option (σ × Option Err))
    (holders : Nat → Option ρ) : Nat → List (Column Ty Val) → σ → Option σ
  | _, [], dests => some dests
  | i, c :: rest, dests =>
    (convertAssign c.1 (holders i) c.2.1 c.2.2 dests).bind fun r =>
      convertColumns convertAssign holders (i + 1) rest r.1

/-- The calls of `convertAssign` on the given columns in order, the first one
being column `i`, each with the content of the column's holder. -/
def columnCalls {ρ Ty Val : Type} (holders : Nat → Option ρ) :
    Nat → List (Column Ty Val) → List (Call ρ Ty Val)
  | _, [] => []
  | i, c :: rest =>
    Call.convertAssign c.1 (holders i) c.2.1 c.2.2 :: columnCalls holders (i + 1) rest

/-- The converter that acts on the destinations as `convertAssign` does, and
panics when it does, but returns a nil result from every call. -/
def eraseResult {ρ Ty Val Err σ : Type}
    (convertAssign : Val → Option ρ → Bool → Ty → σ → Option (σ × Option Err)) :
    Val → Option ρ → Bool → Ty → σ → Option (σ × Option Err) :=
  fun v s p t d => (convertAssign v s p t d).map fun r => (r.1, none)

/-! ## Example collaborators for `scanRow` -/

/-- An example `Elem`: the types `100 + t` are the pointers to the types `t`,
and `Elem` panics on the types below `100`. -/
def exampleElem (t : Nat) : Option Nat := if 100 ≤ t then some (t - 100) else none

/-- An example `convertAssign` that appends its four arguments to the state of
the destinations and returns no error. -/
def recordingConvert (dest : Nat) (src : Option Nat) (isPtr : Bool) (t : Nat)
    (dests : List (Nat × Option Nat × Bool × Nat)) :
    Option (List (Nat × Option Nat × Bool × Nat) × Option Nat) :=
  some (dests ++ [(dest, src, isPtr, t)], none)

/-- An example `convertAssign` that appends its four arguments to the state of
the destinations and returns the error `1` on every call. -/
def failingConvert (dest : Nat) (src : Option Nat) (isPtr : Bool) (t : Nat)
    (dests : List (Nat × Option Nat × Bool × Nat)) :
    Option (List (Nat × Option Nat × Bool × Nat) × Option Nat) :=
  some (dests ++ [(dest, src, isPtr, t)], some 1)

/-- An example `convertAssign` that panics on every call. -/
def panickingConvert (_dest : Nat) (_src : Option Nat) (_isPtr : Bool) (_t : Nat)
    (_dests : List (Nat × Option Nat × Bool × Nat)) :
    Option (List (Nat × Option Nat × Bool × Nat) × Option Nat) :=
  none

/-- An example read that succeeds and leaves holder `0` empty (SQL NULL) and
the value `40 + h` in every other holder `h`. -/
def exampleRead (_refs : List (Option Nat)) : Option Nat × (Nat → Option Nat) :=
  (none, fun h => if h = 0 then none else some (40 + h))

/-- An example read that fails with error `9`. -/
def failingRead (_refs : List (Option Nat)) : Option Nat × (Nat → Option Nat) :=
  (some 9, fun _ => none)

/-! ## Buffer operations -/

theorem writeAt_append (A B : List Byte) (x b : Byte) :
    writeAt (A ++ x :: B) A.length b = some (A ++ b :: B) := by
  simp [writeAt]

theorem sliceOf_mid (P c J : List Byte) :
    sliceOf (P ++ c ++ J) P.length (P.length + c.length) = some c := by
  simp [sliceOf, List.append_assoc]

theorem sliceOf_front (A J : List Byte) :
    sliceOf (A ++ J) 0 A.length = some A := by
  simp [sliceOf]

/-- The checks are live: a table value longer than its key would run past the
end of a buffer sized to the key. -/
theorem overwrite_out_of_range :
    overwrite (bytes "Id") 0 0 (bytes "IDX") = none := by decide

theorem overwrite_span (w2 : List Byte) :
    ∀ (S w1 c2 J : List Byte), w2.length = c2.length →
      overwrite (S ++ w1 ++ c2 ++ J) S.length w1.length w2 = some (S ++ w1 ++ w2 ++ J) := by
  induction w2 with
  | nil =>
    intro S w1 c2 J h
    have : c2 = [] := List.length_eq_zero.mp h.symm
    simp [overwrite, this]
  | cons b w2 ih =>
    intro S w1 c2 J h
    cases c2 with
    | nil => simp at h
    | cons x c2 =>
      have hw : writeAt (S ++ w1 ++ x :: c2 ++ J) (S.length + w1.length) b
          = some ((S ++ (w1 ++ [b])) ++ c2 ++ J) := by
        have := writeAt_append (S ++ w1) (c2 ++ J) x b
        simpa [List.append_assoc] using this
      have hl : w2.length = c2.length := by simpa using h
      have := ih S (w1 ++ [b]) c2 J hl
      simp only [overwrite, hw, Option.some_bind]
      simpa [List.append_assoc] using this

theorem lookup_length_of_forall (tbl : List (List Byte × List Byte))
    (h : ∀ p ∈ tbl, p.2.length = p.1.length) (key word : List Byte)
    (hk : tbl.lookup key = some word) : word.length = key.length := by
  induction tbl with
  | nil => simp at hk
  | cons p tbl ih =>
    obtain ⟨k, w⟩ := p
    by_cases e : key = k
    · subst e
      simp [List.lookup] at hk
      subst hk
      exact h (key, w) (by simp)
    · have hb : (key == k) = false := by simpa using e
      simp [List.lookup, hb] at hk
      exact ih (fun p hp => h p (by simp [hp])) hk

theorem commonInitialisms_length (key word : List Byte)
    (hk : commonInitialisms.lookup key = some word) : word.length = key.length :=
  lookup_length_of_forall commonInitialisms (by decide) key word hk

theorem initialism_length (t : List Byte) : (initialism t).length = t.length := by
  unfold initialism
  cases h : commonInitialisms.lookup t with
  | none => rfl
  | some w => exact commonInitialisms_length t w h

/-! ## The loop invariant -/

theorem lookupSegment_varsAt (P S c : List Byte) (k : Nat) (hS : S.length = P.length) :
    lookupSegment (varsAt P S c k) = some (S ++ initialism c ++ List.replicate k 0) := by
  unfold lookupSegment varsAt initialism
  simp only [sliceOf_mid, Option.some_bind]
  cases h : commonInitialisms.lookup c with
  | none => rfl
  | some w =>
    have hl : w.length = c.length := commonInitialisms_length c w h
    have := overwrite_span w S [] c (List.replicate k 0) hl
    simpa [hS] using this

theorem step_underscore (P S c : List Byte) (k : Nat) (hS : S.length = P.length) :
    step (varsAt P S c k) underscore
      = some (varsAt (P ++ c) (S ++ initialism c) [] k) := by
  unfold step
  simp only [if_true, lookupSegment_varsAt P S c k hS, Option.some_bind]
  simp [varsAt]

theorem step_byte (P S c : List Byte) (k : Nat) (d : Byte) (hS : S.length = P.length)
    (hd : d ≠ underscore) :
    step (varsAt P S c (k + 1)) d
      = some (varsAt P S (c ++ [if c = [] then toUpper d else toLower d]) k) := by
  have h1 : ∀ (A : List Byte) (x : Byte), A.length = P.length →
      writeAt (A ++ c ++ List.replicate (k + 1) 0) (P.length + c.length) x
        = some (A ++ (c ++ [x]) ++ List.replicate k 0) := by
    intro A x hA
    have := writeAt_append (A ++ c) (List.replicate k 0) 0 x
    simpa [List.replicate_succ, List.append_assoc, hA] using this
  simp only [step, if_neg hd, varsAt, h1 P _ rfl, h1 S _ hS, Option.some_bind]
  by_cases hc : c = []
  · simp [hc, toUpper]
  · simp [hc, toLower, Nat.add_assoc]

theorem finish_varsAt (P S c : List Byte) (k : Nat) (hS : S.length = P.length) :
    finish (varsAt P S c k) = some (P ++ c, S ++ initialism c) := by
  unfold finish
  rw [lookupSegment_varsAt P S c k hS]
  have h1 : sliceOf (varsAt P S c k).data 0 (varsAt P S c k).point = some (P ++ c) := by
    have := sliceOf_front (P ++ c) (List.replicate k 0)
    simpa [varsAt] using this
  have h2 : sliceOf (S ++ initialism c ++ List.replicate k 0) 0 (varsAt P S c k).point
      = some (S ++ initialism c) := by
    have := sliceOf_front (S ++ initialism c) (List.replicate k 0)
    simpa [varsAt, initialism_length, hS] using this
  simp only [Option.some_bind, h1, h2]

/-! ## Segments -/

theorem segments_nil : segments [] = [[]] := rfl

theorem segments_ne_nil (name : List Byte) : segments name ≠ [] :=
  List.splitOnP_ne_nil _ _

theorem segments_cons_underscore (rest : List Byte) :
    segments (underscore :: rest) = [] :: segments rest := by
  simp [segments, List.splitOn, List.splitOnP_cons]

theorem segments_cons_byte (d : Byte) (rest : List Byte) (hd : d ≠ underscore) :
    segments (d :: rest) = (segments rest).modifyHead (List.cons d) := by
  simp [segments, List.splitOn, List.splitOnP_cons, hd]

theorem segments_append_underscore (a r : List Byte) :
    segments (a ++ underscore :: r) = segments a ++ segments r := by
  induction a with
  | nil => simp [segments_cons_underscore, segments_nil]
  | cons x a ih =>
    by_cases hx : x = underscore
    · subst hx
      simp [segments_cons_underscore, ih]
    · rw [List.cons_append, segments_cons_byte x _ hx, segments_cons_byte x _ hx, ih]
      cases h : segments a with
      | nil => exact absurd h (segments_ne_nil a)
      | cons s0 ss => rfl

theorem segments_of_not_mem (s : List Byte) (h : underscore ∉ s) : segments s = [s] := by
  induction s with
  | nil => rfl
  | cons x s ih =>
    have hx : x ≠ underscore := fun e => h (by simp [e])
    have hs : underscore ∉ s := fun e => h (by simp [e])
    rw [segments_cons_byte x s hx, ih hs]
    rfl

/-! ## The loop computes the two forms -/

theorem loop_finish (rest : List Byte) :
    ∀ (P S c : List Byte) (k : Nat) (s0 : List Byte) (ss : List (List Byte)),
      S.length = P.length → rest.length ≤ k → segments rest = s0 :: ss →
      (loop (varsAt P S c k) rest).bind finish
        = some (P ++ extend c s0 ++ (ss.map title).flatten,
                S ++ initialism (extend c s0)
                  ++ (ss.map fun s => initialism (title s)).flatten) := by
  induction rest with
  | nil =>
    intro P S c k s0 ss hS _ hseg
    rw [segments_nil] at hseg
    obtain ⟨rfl, rfl⟩ : [] = s0 ∧ [] = ss := by simpa using hseg
    have hx : extend c [] = c := by
      unfold extend
      by_cases hc : c = [] <;> simp [hc, title]
    simp [loop, finish_varsAt P S c k hS, hx]
  | cons d rest ih =>
    intro P S c k s0 ss hS hk hseg
    by_cases hd : d = underscore
    · subst hd
      rw [segments_cons_underscore] at hseg
      obtain ⟨rfl, rfl⟩ : [] = s0 ∧ segments rest = ss := by simpa using hseg
      obtain ⟨t0, ts, ht⟩ : ∃ t0 ts, segments rest = t0 :: ts := by
        cases h : segments rest with
        | nil => exact absurd h (segments_ne_nil rest)
        | cons t0 ts => exact ⟨t0, ts, rfl⟩
      have hk' : rest.length ≤ k := by
        simp at hk
        omega
      have hS' : (S ++ initialism c).length = (P ++ c).length := by
        simp [initialism_length, hS]
      have := ih (P ++ c) (S ++ initialism c) [] k t0 ts hS' hk' ht
      have hx : extend c [] = c := by
        unfold extend
        by_cases hc : c = [] <;> simp [hc, title]
      have hx0 : extend [] t0 = title t0 := by simp [extend]
      simp only [loop, step_underscore P S c k hS, Option.some_bind, this, ht, hx, hx0]
      simp [List.append_assoc]
    · obtain ⟨t0, ts, ht⟩ : ∃ t0 ts, segments rest = t0 :: ts := by
        cases h : segments rest with
        | nil => exact absurd h (segments_ne_nil rest)
        | cons t0 ts => exact ⟨t0, ts, rfl⟩
      rw [segments_cons_byte d rest hd, ht] at hseg
      obtain ⟨rfl, rfl⟩ : d :: t0 = s0 ∧ ts = ss := by simpa using hseg
      obtain ⟨k', rfl⟩ : ∃ k', k = k' + 1 := by
        simp at hk
        exact ⟨k - 1, by omega⟩
      have hk' : rest.length ≤ k' := by
        simp at hk
        omega
      have := ih P S (c ++ [if c = [] then toUpper d else toLower d]) k' t0 ts hS hk' ht
      have hx : extend (c ++ [if c = [] then toUpper d else toLower d]) t0
          = extend c (d :: t0) := by
        unfold extend
        by_cases hc : c = [] <;> simp [hc, title]
      simp only [loop, step_byte P S c k' d hS hd, Option.some_bind, this, hx]

/-- The checked model of `toGoNames` never panics and returns the plain form
and the initialism form of the specification. -/
theorem toGoNames_eq (name : List Byte) :
    toGoNames name = some (plainForm name, initialismForm name) := by
  obtain ⟨t0, ts, ht⟩ : ∃ t0 ts, segments name = t0 :: ts := by
    cases h : segments name with
    | nil => exact absurd h (segments_ne_nil name)
    | cons t0 ts => exact ⟨t0, ts, rfl⟩
  have := loop_finish name [] [] [] name.length t0 ts rfl (Nat.le_refl _) ht
  have hx0 : extend [] t0 = title t0 := by simp [extend]
  have hv : varsAt [] [] [] name.length = initVars name.length := by
    simp [varsAt, initVars]
  unfold toGoNames
  simp only [← hv, this, plainForm, initialismForm, ht, hx0]
  simp


/-! ## Properties of the renderings -/

theorem title_length (s : List Byte) : (title s).length = s.length := by
  cases s <;> simp [title]

theorem toUpper_eq_underscore (b : Byte) (h : toUpper b = underscore) : b = underscore := by
  unfold toUpper at h
  simp only [Byte, underscore] at h ⊢
  split_ifs at h <;> omega

theorem toLower_eq_underscore (b : Byte) (h : toLower b = underscore) : b = underscore := by
  unfold toLower at h
  simp only [Byte, underscore] at h ⊢
  split_ifs at h <;> omega

theorem underscore_not_mem_title (s : List Byte) (h : underscore ∉ s) :
    underscore ∉ title s := by
  cases s with
  | nil => simp [title]
  | cons b bs =>
    intro hm
    simp only [title, List.mem_cons, List.mem_map] at hm
    rcases hm with hm | ⟨x, hx, hm⟩
    · exact h (by simp [toUpper_eq_underscore b hm.symm])
    · have := toLower_eq_underscore x hm
      subst this
      exact h (by simp [hx])

theorem underscore_not_mem_segment (name : List Byte) :
    ∀ s ∈ segments name, underscore ∉ s := by
  induction name with
  | nil =>
    intro s hs
    simp [segments_nil] at hs
    simp [hs]
  | cons d rest ih =>
    intro s hs
    by_cases hd : d = underscore
    · subst hd
      rw [segments_cons_underscore] at hs
      rcases List.mem_cons.mp hs with rfl | hs
      · simp
      · exact ih s hs
    · rw [segments_cons_byte d rest hd] at hs
      cases h : segments rest with
      | nil => exact absurd h (segments_ne_nil rest)
      | cons t0 ts =>
        rw [h] at hs ih
        simp only [List.modifyHead_cons, List.mem_cons] at hs
        rcases hs with rfl | hs
        · intro hm
          rcases List.mem_cons.mp hm with e | hm
          · exact hd e.symm
          · exact ih t0 (by simp) hm
        · exact ih s (by simp [hs])

theorem lookup_nil : commonInitialisms.lookup [] = none := by decide

theorem initialism_nil : initialism [] = [] := by
  simp [initialism, lookup_nil]

theorem plainForm_of_not_mem (s : List Byte) (h : underscore ∉ s) :
    plainForm s = title s := by
  simp [plainForm, segments_of_not_mem s h]

theorem initialismForm_of_not_mem (s : List Byte) (h : underscore ∉ s) :
    initialismForm s = initialism (title s) := by
  simp [initialismForm, segments_of_not_mem s h]

theorem plainForm_append_underscore (a r : List Byte) :
    plainForm (a ++ underscore :: r) = plainForm a ++ plainForm r := by
  simp [plainForm, segments_append_underscore]

theorem initialismForm_append_underscore (a r : List Byte) :
    initialismForm (a ++ underscore :: r) = initialismForm a ++ initialismForm r := by
  simp [initialismForm, segments_append_underscore]

theorem plainForm_nil : plainForm [] = [] := by
  simp [plainForm, segments_nil, title]

theorem initialismForm_nil : initialismForm [] = [] := by
  simp [initialismForm, segments_nil, title, initialism_nil]

/-! ## Case of the input -/

theorem step_upper_lower (v : Vars) (a : Byte) (h1 : 65 ≤ a) (h2 : a ≤ 90) :
    step v a = step v (a + 32) := by
  simp only [Byte] at h1 h2
  have ha : a ≠ underscore := by
    intro e
    simp only [Byte, underscore] at e
    omega
  have hb : a + 32 ≠ underscore := by
    intro e
    simp only [Byte, underscore] at e
    omega
  have e1 : ¬ (a ≥ 97 ∧ a ≤ 122) := by
    simp only [Byte]
    omega
  have e2 : (a + 32 ≥ 97 ∧ a + 32 ≤ 122) := by
    simp only [Byte]
    omega
  have e3 : (a ≥ 65 ∧ a ≤ 90) := ⟨h1, h2⟩
  have e4 : ¬ (a + 32 ≥ 65 ∧ a + 32 ≤ 90) := by
    simp only [Byte]
    omega
  simp only [step, if_neg ha, if_neg hb, if_neg e1, if_pos e2, if_pos e3, if_neg e4,
    Nat.add_sub_cancel, ite_self]

theorem step_sameLetter (v : Vars) (a b : Byte) (h : SameLetter a b) :
    step v a = step v b := by
  rcases h with rfl | ⟨h1, h2, rfl⟩ | ⟨h1, h2, rfl⟩
  · rfl
  · exact step_upper_lower v a h1 h2
  · exact (step_upper_lower v b h1 h2).symm

theorem loop_sameLetter (n1 n2 : List Byte) (h : List.Forall₂ SameLetter n1 n2) :
    ∀ v : Vars, loop v n1 = loop v n2 := by
  induction h with
  | nil => intro v; rfl
  | cons hab _ ih =>
    intro v
    simp only [loop, step_sameLetter v _ _ hab]
    cases step v _ with
    | none => rfl
    | some w => simpa using ih w

theorem toGoNames_sameLetter (n1 n2 : List Byte) (h : List.Forall₂ SameLetter n1 n2) :
    toGoNames n1 = toGoNames n2 := by
  unfold toGoNames
  simp only [h.length_eq, loop_sameLetter n1 n2 h]

theorem sameLetter_toLower (a : Byte) : SameLetter a (toLower a) := by
  unfold SameLetter toLower
  simp only [Byte]
  split_ifs <;> omega

theorem sameLetter_toUpper (a : Byte) : SameLetter a (toUpper a) := by
  unfold SameLetter toUpper
  simp only [Byte]
  split_ifs <;> omega

theorem forall₂_map_sameLetter (f : Byte → Byte) (hf : ∀ a, SameLetter a (f a))
    (n : List Byte) : List.Forall₂ SameLetter n (n.map f) := by
  induction n with
  | nil => exact List.Forall₂.nil
  | cons a n ih => exact List.Forall₂.cons (hf a) ih


/-! ## Lengths -/

theorem sum_length_map (f : List Byte → List Byte) (hf : ∀ s, (f s).length = s.length)
    (L : List (List Byte)) : (L.map f).flatten.length = (L.map List.length).sum := by
  induction L with
  | nil => rfl
  | cons s L ih => simp [hf, ih]

theorem segments_length_sum (name : List Byte) :
    ((segments name).map List.length).sum + name.count underscore = name.length := by
  induction name with
  | nil => simp [segments_nil]
  | cons d rest ih =>
    by_cases hd : d = underscore
    · subst hd
      rw [segments_cons_underscore]
      simp only [List.map_cons, List.sum_cons, List.length_nil, List.count_cons_self,
        List.length_cons]
      omega
    · rw [segments_cons_byte d rest hd]
      have hc : (d :: rest).count underscore = rest.count underscore :=
        List.count_cons_of_ne (fun e => hd e.symm) rest
      cases h : segments rest with
      | nil => exact absurd h (segments_ne_nil rest)
      | cons t0 ts =>
        rw [h] at ih
        simp only [List.modifyHead_cons, List.map_cons, List.sum_cons, List.length_cons,
          hc] at ih ⊢
        omega

theorem plainForm_length (name : List Byte) :
    (plainForm name).length + name.count underscore = name.length := by
  unfold plainForm
  rw [sum_length_map title title_length]
  exact segments_length_sum name

theorem initialismForm_length (name : List Byte) :
    (initialismForm name).length + name.count underscore = name.length := by
  unfold initialismForm
  rw [sum_length_map (fun s => initialism (title s))
    (fun s => by simp [initialism_length, title_length])]
  exact segments_length_sum name

/-! ## Reachable loop states -/

theorem loop_varsAt (pre : List Byte) :
    ∀ (P S c : List Byte) (k : Nat), S.length = P.length → pre.length ≤ k →
      ∃ (P' S' c' : List Byte) (k' : Nat),
        loop (varsAt P S c k) pre = some (varsAt P' S' c' k') ∧
        S'.length = P'.length ∧ k ≤ k' + pre.length ∧
        P'.length + c'.length + k' = P.length + c.length + k := by
  induction pre with
  | nil =>
    intro P S c k hS _
    exact ⟨P, S, c, k, rfl, hS, by simp, rfl⟩
  | cons d pre ih =>
    intro P S c k hS hk
    simp only [List.length_cons] at hk
    by_cases hd : d = underscore
    · subst hd
      have hS' : (S ++ initialism c).length = (P ++ c).length := by
        simp [initialism_length, hS]
      obtain ⟨P', S', c', k', h1, h2, h3, h4⟩ :=
        ih (P ++ c) (S ++ initialism c) [] k hS' (by omega)
      refine ⟨P', S', c', k', ?_, h2, ?_, ?_⟩
      · simp only [loop, step_underscore P S c k hS, Option.some_bind, h1]
      · simp only [List.length_cons]
        omega
      · simp only [List.length_append, List.length_nil] at h4
        omega
    · obtain ⟨j, rfl⟩ : ∃ j, k = j + 1 := ⟨k - 1, by omega⟩
      obtain ⟨P', S', c', k', h1, h2, h3, h4⟩ :=
        ih P S (c ++ [if c = [] then toUpper d else toLower d]) j hS (by omega)
      refine ⟨P', S', c', k', ?_, h2, ?_, ?_⟩
      · simp only [loop, step_byte P S c j d hS hd, Option.some_bind, h1]
      · simp only [List.length_cons]
        omega
      · simp only [List.length_append, List.length_singleton] at h4
        omega


/-! ## The claims about `toGoNames` -/

/-- C1: for every byte string `name`, `toGoNames` returns, and its first (plain)
output is the concatenation, over the segments of `name` split at every `'_'`,
of each segment with its first byte ASCII-upper-cased and every later byte
ASCII-lower-cased; the plain output contains no `'_'`. -/
theorem toGoNames_plain_form (name : List Byte) :
    (∃ b, toGoNames name
        = some (((name.splitOn underscore).map title).flatten, b)) ∧
      ∀ a b, toGoNames name = some (a, b) → underscore ∉ a := by
  have hno : underscore ∉ plainForm name := by
    intro hm
    obtain ⟨t, ht, hmt⟩ := List.mem_flatten.mp hm
    obtain ⟨s, hs, rfl⟩ := List.mem_map.mp ht
    exact underscore_not_mem_title s (underscore_not_mem_segment name s hs) hmt
  refine ⟨⟨initialismForm name, toGoNames_eq name⟩, ?_⟩
  intro a b h
  rw [toGoNames_eq] at h
  obtain ⟨rfl, _⟩ : plainForm name = a ∧ initialismForm name = b := by simpa using h
  exact hno

/-- C2: for every byte string `name`, the second (initialism) output of
`toGoNames` is the concatenation, over the segments of `name` split at every
`'_'`, of the table's value for the segment's plain rendering when that
rendering is a key of `commonInitialisms`, and of the plain rendering
otherwise; every matching segment is replaced:
`toGoNames("http_url") = ("HttpUrl", "HTTPURL")`. -/
theorem toGoNames_initialism_form :
    (∀ name : List Byte, ∃ a, toGoNames name
        = some (a, ((name.splitOn underscore).map fun s =>
            match commonInitialisms.lookup (title s) with
            | some word => word
            | none => title s).flatten)) ∧
      toGoNames (bytes "http_url") = some (bytes "HttpUrl", bytes "HTTPURL") :=
  ⟨fun name => ⟨plainForm name, toGoNames_eq name⟩, by decide⟩

/-- C3: when the final segment `seg` of `name` (the whole name, or the bytes
after its last `'_'`) renders in plain form as a key of `commonInitialisms`
with value `word`, the initialism output of `toGoNames` ends with `word` and
the plain output ends with the key `title seg`. -/
theorem toGoNames_final_segment (name seg word : List Byte)
    (hname : name = seg ∨ ∃ p, name = p ++ underscore :: seg)
    (hseg : underscore ∉ seg)
    (hk : commonInitialisms.lookup (title seg) = some word) :
    ∃ a b, toGoNames name = some (a, b) ∧ word <:+ b ∧ title seg <:+ a := by
  have hi : initialism (title seg) = word := by simp [initialism, hk]
  refine ⟨plainForm name, initialismForm name, toGoNames_eq name, ?_, ?_⟩
  · rcases hname with rfl | ⟨p, rfl⟩
    · rw [initialismForm_of_not_mem _ hseg, hi]
    · rw [initialismForm_append_underscore, initialismForm_of_not_mem _ hseg, hi]
      exact List.suffix_append _ _
  · rcases hname with rfl | ⟨p, rfl⟩
    · rw [plainForm_of_not_mem _ hseg]
    · rw [plainForm_append_underscore, plainForm_of_not_mem _ hseg]
      exact List.suffix_append _ _

/-- Witness of C3 at `"user_id"`, whose final segment `"id"` renders as the key
`"Id"`: `toGoNames("user_id") = ("UserId", "UserID")`. -/
theorem toGoNames_final_segment_witness :
    toGoNames (bytes "user_id") = some (bytes "UserId", bytes "UserID") ∧
      ∃ a b, toGoNames (bytes "user_id") = some (a, b) ∧
        bytes "ID" <:+ b ∧ title (bytes "id") <:+ a :=
  ⟨by decide,
   toGoNames_final_segment (bytes "user_id") (bytes "id") (bytes "ID")
     (Or.inr ⟨bytes "user", by decide⟩) (by decide) (by decide)⟩

/-- C4: for a name containing no `'_'`, the plain output of `toGoNames` is the
name with its first byte upper-cased and all later bytes lower-cased, and the
initialism output is the table's value for that string when it is a key of
`commonInitialisms` and that same string otherwise; for the empty name both
outputs are empty. -/
theorem toGoNames_no_underscore (name : List Byte) (h : underscore ∉ name) :
    toGoNames name
        = some (title name,
            match commonInitialisms.lookup (title name) with
            | some word => word
            | none => title name) ∧
      toGoNames [] = some ([], []) := by
  constructor
  · rw [toGoNames_eq, plainForm_of_not_mem _ h, initialismForm_of_not_mem _ h]
    rfl
  · rw [toGoNames_eq, plainForm_nil, initialismForm_nil]

/-- Witness of C4 at `"uRL"` (whose plain rendering `"Url"` is a key of the table). -/
theorem toGoNames_no_underscore_witness :
    underscore ∉ bytes "uRL" ∧ toGoNames (bytes "uRL") = some (bytes "Url", bytes "URL") :=
  ⟨by decide, (toGoNames_no_underscore (bytes "uRL") (by decide)).1⟩

/-- C5: the case of the input is irrelevant: two names of equal length that
differ only in the ASCII case of their letters have the same pair of outputs;
in particular a name, its lower-casing and its upper-casing have the same
outputs. -/
theorem toGoNames_case_irrelevant (n1 n2 : List Byte)
    (h : List.Forall₂ SameLetter n1 n2) :
    toGoNames n1 = toGoNames n2 ∧
      toGoNames n1 = toGoNames (n1.map toLower) ∧
      toGoNames n1 = toGoNames (n1.map toUpper) :=
  ⟨toGoNames_sameLetter n1 n2 h,
   toGoNames_sameLetter n1 _ (forall₂_map_sameLetter toLower sameLetter_toLower n1),
   toGoNames_sameLetter n1 _ (forall₂_map_sameLetter toUpper sameLetter_toUpper n1)⟩

/-- Witness of C5 at `"uSER_Id"` and `"User_iD"`. -/
theorem toGoNames_case_irrelevant_witness :
    List.Forall₂ SameLetter (bytes "uSER_Id") (bytes "User_iD") ∧
      toGoNames (bytes "uSER_Id") = toGoNames (bytes "User_iD") :=
  ⟨by decide, (toGoNames_case_irrelevant (bytes "uSER_Id") (bytes "User_iD") (by decide)).1⟩


/-- C6: `toGoNames` does not panic on any input, and every buffer access is in
bounds.  For every split `name = pre ++ rest`, the loop reaches the state `v`
after the bytes of `pre`; there both buffers have length `len(name)`,
`firstPoint <= point`, and `point + len(rest) <= len(name)` (so
`point < len(name)` when a byte remains to be written); the slice
`data[firstPoint:point]` is defined, and a table value `word` found for it
satisfies `firstPoint + len(word) <= point`, so each overwritten index
`firstPoint + j` is below `len(name)`. -/
theorem toGoNames_in_bounds (pre rest : List Byte) :
    toGoNames (pre ++ rest) ≠ none ∧
      ∃ v : Vars, loop (initVars (pre ++ rest).length) pre = some v ∧
        v.data.length = (pre ++ rest).length ∧
        v.dataSpecial.length = (pre ++ rest).length ∧
        v.firstPoint ≤ v.point ∧
        v.point + rest.length ≤ (pre ++ rest).length ∧
        ∃ key, sliceOf v.data v.firstPoint v.point = some key ∧
          ∀ word, commonInitialisms.lookup key = some word →
            v.firstPoint + word.length ≤ v.point := by
  constructor
  · rw [toGoNames_eq]
    simp
  · obtain ⟨P, S, c, k, h1, h2, h3, h4⟩ :=
      loop_varsAt pre [] [] [] (pre ++ rest).length rfl (by simp)
    have hv : varsAt [] [] [] (pre ++ rest).length = initVars (pre ++ rest).length := by
      simp [varsAt, initVars]
    rw [hv] at h1
    simp only [List.length_nil, List.length_append, Nat.zero_add] at h3 h4
    refine ⟨varsAt P S c k, h1, ?_, ?_, ?_, ?_, c, sliceOf_mid P c _, ?_⟩
    · simp only [varsAt, List.length_append, List.length_replicate]
      omega
    · simp only [varsAt, List.length_append, List.length_replicate]
      omega
    · simp [varsAt]
    · simp only [varsAt, List.length_append]
      omega
    · intro word hw
      have := commonInitialisms_length c word hw
      simp only [varsAt]
      omega

/-- Witness of C6 at `"id" ++ "_x"`: after `"id"` the loop variables are
`point = 2`, `firstPoint = 0`, the slice is the key `"Id"`, and its table value
`"ID"` fits below `point`. -/
theorem toGoNames_in_bounds_witness :
    toGoNames (bytes "id" ++ bytes "_x") ≠ none ∧
      loop (initVars 4) (bytes "id")
        = some { data := bytes "Id" ++ [0, 0], dataSpecial := bytes "Id" ++ [0, 0],
                 point := 2, isFirst := false, firstPoint := 0 } ∧
      commonInitialisms.lookup (bytes "Id") = some (bytes "ID") :=
  ⟨(toGoNames_in_bounds (bytes "id") (bytes "_x")).1, by decide, by decide⟩

/-- C7: empty segments contribute nothing: deleting a leading `'_'`, a trailing
`'_'`, or one of two adjacent `'_'` leaves both outputs of `toGoNames`
unchanged; so `"user__id"` and `"user_id"` have the same outputs, and so do
`"_user"`, `"user_"` and `"user"`. -/
theorem toGoNames_empty_segments :
    (∀ a : List Byte, toGoNames (underscore :: a) = toGoNames a) ∧
      (∀ a : List Byte, toGoNames (a ++ [underscore]) = toGoNames a) ∧
      (∀ a b : List Byte,
        toGoNames (a ++ underscore :: underscore :: b) = toGoNames (a ++ underscore :: b)) ∧
      toGoNames (bytes "user__id") = toGoNames (bytes "user_id") ∧
      toGoNames (bytes "_user") = toGoNames (bytes "user") ∧
      toGoNames (bytes "user_") = toGoNames (bytes "user") := by
  have hp : ∀ r : List Byte, plainForm (underscore :: r) = plainForm r := fun r => by
    simpa [plainForm_nil] using plainForm_append_underscore [] r
  have hi : ∀ r : List Byte, initialismForm (underscore :: r) = initialismForm r := fun r => by
    simpa [initialismForm_nil] using initialismForm_append_underscore [] r
  refine ⟨?_, ?_, ?_, by decide, by decide, by decide⟩
  · intro a
    rw [toGoNames_eq, toGoNames_eq, hp, hi]
  · intro a
    rw [toGoNames_eq, toGoNames_eq, plainForm_append_underscore,
      initialismForm_append_underscore, plainForm_nil, initialismForm_nil]
    simp
  · intro a b
    rw [toGoNames_eq, toGoNames_eq, plainForm_append_underscore,
      initialismForm_append_underscore, plainForm_append_underscore,
      initialismForm_append_underscore, hp, hi]

/-- C8: for every name, both outputs of `toGoNames` have the same length,
`len(name)` minus the number of `'_'` bytes in `name`, which is at most
`len(name)`. -/
theorem toGoNames_output_length (name : List Byte) :
    ∃ a b, toGoNames name = some (a, b) ∧
      a.length = name.length - name.count underscore ∧
      b.length = name.length - name.count underscore ∧
      a.length ≤ name.length ∧ b.length ≤ name.length := by
  have h1 := plainForm_length name
  have h2 := initialismForm_length name
  refine ⟨plainForm name, initialismForm name, toGoNames_eq name, ?_, ?_, ?_, ?_⟩ <;> omega

/-! ## The claims about `findFiled` -/

/-- C9: `findFiled` prefers the plain form: `toGoNames(name)` returns some pair
`(a, b)`, and whenever `a` is a key of the field map `m`, with value `t`,
`findFiled(m, name)` returns `(a, t)`, whether or not `b` is a key of `m`. -/
theorem findFiled_prefers_plain {τ : Type} (m : GoMap (Option τ)) (name : List Byte) :
    ∃ a b, toGoNames name = some (a, b) ∧
      ∀ t, m.lookup a = some t → findFiled m name = some (a, t) := by
  refine ⟨plainForm name, initialismForm name, toGoNames_eq name, ?_⟩
  intro t ht
  simp [findFiled, toGoNames_eq, ht]

/-- Witness of C9: both `"UserId"` and `"UserID"` are keys, and the plain one
is returned. -/
theorem findFiled_prefers_plain_witness :
    findFiled [(bytes "UserID", some 1), (bytes "UserId", some 2)] (bytes "user_id")
      = some (bytes "UserId", some 2) := by
  obtain ⟨a, b, h, hk⟩ :=
    findFiled_prefers_plain [(bytes "UserID", some 1), (bytes "UserId", some 2)]
      (bytes "user_id")
  have e : toGoNames (bytes "user_id") = some (bytes "UserId", bytes "UserID") := by decide
  rw [e] at h
  obtain ⟨rfl, rfl⟩ : bytes "UserId" = a ∧ bytes "UserID" = b := by simpa using h
  exact hk (some 2) (by decide)

/-- C10: `findFiled` falls back to the initialism form: `toGoNames(name)`
returns some pair `(a, b)`, and whenever `a` is not a key of the field map `m`
and `b` is a key of `m`, with value `t`, `findFiled(m, name)` returns `(b, t)`. -/
theorem findFiled_falls_back {τ : Type} (m : GoMap (Option τ)) (name : List Byte) :
    ∃ a b, toGoNames name = some (a, b) ∧
      ∀ t, m.lookup a = none → m.lookup b = some t →
        findFiled m name = some (b, t) := by
  refine ⟨plainForm name, initialismForm name, toGoNames_eq name, ?_⟩
  intro t ha hb
  simp [findFiled, toGoNames_eq, ha, hb]

/-- Witness of C10: only `"UserID"` is a key, and it is returned. -/
theorem findFiled_falls_back_witness :
    findFiled [(bytes "UserID", some 1), (bytes "Name", some 2)] (bytes "user_id")
      = some (bytes "UserID", some 1) := by
  obtain ⟨a, b, h, hk⟩ :=
    findFiled_falls_back [(bytes "UserID", some 1), (bytes "Name", some 2)]
      (bytes "user_id")
  have e : toGoNames (bytes "user_id") = some (bytes "UserId", bytes "UserID") := by decide
  rw [e] at h
  obtain ⟨rfl, rfl⟩ : bytes "UserId" = a ∧ bytes "UserID" = b := by simpa using h
  exact hk (some 1) (by decide) (by decide)

/-! ## Map lookups -/

theorem lookup_eq_none_iff_forall {V : Type} (m : GoMap V) (k : List Byte) :
    m.lookup k = none ↔ ∀ p ∈ m, p.1 ≠ k := by
  induction m with
  | nil => simp
  | cons p m ih =>
    obtain ⟨k', v⟩ := p
    by_cases e : k = k'
    · subst e
      simp [List.lookup]
    · have hb : (k == k') = false := by simpa using e
      simp only [List.lookup, hb, ih, List.mem_cons, forall_eq_or_imp]
      constructor
      · intro h
        exact ⟨fun e' => e e'.symm, h⟩
      · intro h
        exact h.2

theorem mem_of_lookup_eq_some {V : Type} (m : GoMap V) (k : List Byte) (v : V)
    (h : m.lookup k = some v) : (k, v) ∈ m := by
  induction m with
  | nil => simp at h
  | cons p m ih =>
    obtain ⟨k', v'⟩ := p
    by_cases e : k = k'
    · subst e
      simp [List.lookup] at h
      subst h
      simp
    · have hb : (k == k') = false := by simpa using e
      simp only [List.lookup, hb] at h
      exact List.mem_cons_of_mem _ (ih h)

/-! ## The table -/

theorem commonInitialisms_entries :
    ∀ p ∈ commonInitialisms, p.2 = p.1.map toUpper ∧ p.2 ≠ p.1 := by decide

theorem toUpper_toUpper (b : Byte) : toUpper (toUpper b) = toUpper b := by
  unfold toUpper
  simp only [Byte]
  split_ifs <;> omega

theorem initialism_map_toUpper (t : List Byte) :
    (initialism t).map toUpper = t.map toUpper := by
  unfold initialism
  cases h : commonInitialisms.lookup t with
  | none => rfl
  | some w =>
    have := (commonInitialisms_entries (t, w) (mem_of_lookup_eq_some _ t w h)).1
    simp only at this
    simp [this, toUpper_toUpper]

theorem initialism_eq_self_iff (t : List Byte) :
    initialism t = t ↔ commonInitialisms.lookup t = none := by
  unfold initialism
  cases h : commonInitialisms.lookup t with
  | none => simp
  | some w =>
    have := (commonInitialisms_entries (t, w) (mem_of_lookup_eq_some _ t w h)).2
    simpa using this

theorem flatten_map_eq_iff (f g : List Byte → List Byte)
    (hfg : ∀ s, (f s).length = (g s).length) (L : List (List Byte)) :
    (L.map f).flatten = (L.map g).flatten ↔ ∀ s ∈ L, f s = g s := by
  induction L with
  | nil => simp
  | cons s L ih =>
    simp only [List.map_cons, List.flatten_cons, List.mem_cons, forall_eq_or_imp]
    constructor
    · intro h
      obtain ⟨h1, h2⟩ := List.append_inj h (hfg s)
      exact ⟨h1, ih.mp h2⟩
    · rintro ⟨h1, h2⟩
      rw [h1, ih.mpr h2]

/-! ## The remaining claims about `toGoNames` and `findFiled` -/

/-- C11: `findFiled` returns "not found" if neither candidate matches:
`toGoNames(name)` returns some pair `(a, b)`, and when neither `a` nor `b` is a
key of the field map `m`, `findFiled(m, name)` returns the empty name and a nil
descriptor, without a panic; a lookup misses exactly when no entry of the map
has that very byte string as its key. -/
theorem findFiled_not_found {τ : Type} (m : GoMap (Option τ)) (name : List Byte) :
    ∃ a b, toGoNames name = some (a, b) ∧
      (m.lookup a = none → m.lookup b = none → findFiled m name = some ([], none)) ∧
      ∀ k : List Byte, m.lookup k = none ↔ ∀ p ∈ m, p.1 ≠ k := by
  refine ⟨plainForm name, initialismForm name, toGoNames_eq name, ?_,
    lookup_eq_none_iff_forall m⟩
  intro ha hb
  simp [findFiled, toGoNames_eq, ha, hb]

/-- Witness of C11: the keys `"userid"`, `"USERID"` and `"User_Id"` differ from
both candidates `"UserId"` and `"UserID"`, and nothing is found. -/
theorem findFiled_not_found_witness :
    findFiled [(bytes "userid", some 1), (bytes "USERID", some 2), (bytes "User_Id", some 3)]
        (bytes "user_id")
      = some ([], none) := by
  obtain ⟨a, b, h, hk, _⟩ :=
    findFiled_not_found
      [(bytes "userid", some 1), (bytes "USERID", some 2), (bytes "User_Id", some 3)]
      (bytes "user_id")
  have e : toGoNames (bytes "user_id") = some (bytes "UserId", bytes "UserID") := by decide
  rw [e] at h
  obtain ⟨rfl, rfl⟩ : bytes "UserId" = a ∧ bytes "UserID" = b := by simpa using h
  exact hk (by decide) (by decide)

/-- C16: every entry of `commonInitialisms` maps its key to the ASCII
upper-casing of that key: the value has the length of the key, each value byte
is the upper-case of the corresponding key byte, the key is a fixed point of
the plain rendering, and the value differs from the key. -/
theorem commonInitialisms_upper_case (key word : List Byte)
    (h : (key, word) ∈ commonInitialisms) :
    word.length = key.length ∧
      (∀ i (hi : i < key.length) (hw : i < word.length),
        word.get ⟨i, hw⟩ = toUpper (key.get ⟨i, hi⟩)) ∧
      title key = key ∧ word ≠ key := by
  have hall : ∀ p ∈ commonInitialisms,
      p.2 = p.1.map toUpper ∧ title p.1 = p.1 ∧ p.2 ≠ p.1 := by decide
  obtain ⟨h1, h2, h3⟩ := hall (key, word) h
  simp only at h1 h2 h3
  subst h1
  refine ⟨by simp, ?_, h2, h3⟩
  intro i hi hw
  simp

/-- Witness of C16 at the entry `"Utf8"` / `"UTF8"`. -/
theorem commonInitialisms_upper_case_witness :
    (bytes "Utf8", bytes "UTF8") ∈ commonInitialisms ∧
      (bytes "UTF8").length = (bytes "Utf8").length ∧
      title (bytes "Utf8") = bytes "Utf8" ∧ bytes "UTF8" ≠ bytes "Utf8" :=
  have h := commonInitialisms_upper_case (bytes "Utf8") (bytes "UTF8") (by decide)
  ⟨by decide, h.1, h.2.2.1, h.2.2.2⟩

/-- C17: for every name, the two outputs of `toGoNames` are equal up to ASCII
letter case (upper-casing both gives the same string), and they are equal
exactly when no segment of the name renders in plain form as a key of
`commonInitialisms`. -/
theorem toGoNames_outputs_case_equal (name : List Byte) :
    ∃ a b, toGoNames name = some (a, b) ∧
      a.map toUpper = b.map toUpper ∧
      (a = b ↔ ∀ s ∈ name.splitOn underscore,
        commonInitialisms.lookup (title s) = none) := by
  refine ⟨plainForm name, initialismForm name, toGoNames_eq name, ?_, ?_⟩
  · simp only [plainForm, initialismForm, List.map_flatten, List.map_map]
    congr 1
    apply List.map_congr_left
    intro s _
    simp [initialism_map_toUpper]
  · have h := flatten_map_eq_iff title (fun s => initialism (title s))
      (fun s => by simp [initialism_length]) (segments name)
    have h' : plainForm name = initialismForm name ↔
        ∀ s ∈ segments name, title s = initialism (title s) := h
    rw [h']
    constructor
    · intro hs s hm
      exact (initialism_eq_self_iff (title s)).mp (hs s hm).symm
    · intro hs s hm
      exact ((initialism_eq_self_iff (title s)).mpr (hs s hm)).symm

/-- Witness of C17: `"user_name"` has no initialism segment and equal outputs;
`"user_id"` has one and outputs that differ only in case. -/
theorem toGoNames_outputs_case_equal_witness :
    toGoNames (bytes "user_name") = some (bytes "UserName", bytes "UserName") ∧
      toGoNames (bytes "user_id") = some (bytes "UserId", bytes "UserID") ∧
      ∃ a b, toGoNames (bytes "user_id") = some (a, b) ∧
        a.map toUpper = b.map toUpper ∧
        (a = b ↔ ∀ s ∈ (bytes "user_id").splitOn underscore,
          commonInitialisms.lookup (title s) = none) :=
  ⟨by decide, by decide, toGoNames_outputs_case_equal (bytes "user_id")⟩

/-- C18: for a field map `m` with no empty-string key, `findFiled(m, name)`
returns some `(n, t)`; `n` is empty exactly when neither output of
`toGoNames(name)` is a key of `m`; and a non-empty `n` is one of the two
outputs, is a key of `m`, and `t` is `m[n]`.  Without the precondition the
equivalence fails: with the empty string as a key, the names `""` and `"_"`
match that key and the returned name is empty. -/
theorem findFiled_empty_name_iff :
    (∀ (τ : Type) (m : GoMap (Option τ)) (name : List Byte), m.lookup [] = none →
      ∃ a b n t, toGoNames name = some (a, b) ∧ findFiled m name = some (n, t) ∧
        (n = [] ↔ m.lookup a = none ∧ m.lookup b = none) ∧
        (n ≠ [] → (n = a ∨ n = b) ∧ m.lookup n = some t)) ∧
      (toGoNames [] = some ([], []) ∧
        List.lookup [] [(([] : List Byte), some 7)] = some (some 7) ∧
        findFiled [([], some 7)] [] = some ([], some 7)) ∧
      (toGoNames (bytes "_") = some ([], []) ∧
        findFiled [([], some 7)] (bytes "_") = some ([], some 7)) := by
  refine ⟨?_, ⟨by decide, by decide, by decide⟩, ⟨by decide, by decide⟩⟩
  intro τ m name hm
  cases ha : m.lookup (plainForm name) with
  | some t =>
    have hne : plainForm name ≠ [] := by
      intro e
      rw [e, hm] at ha
      exact Option.noConfusion ha
    refine ⟨plainForm name, initialismForm name, plainForm name, t, toGoNames_eq name,
      by simp [findFiled, toGoNames_eq, ha], ?_, ?_⟩
    · constructor
      · intro e
        exact absurd e hne
      · rintro ⟨h1, _⟩
        rw [ha] at h1
        exact Option.noConfusion h1
    · intro _
      exact ⟨Or.inl rfl, ha⟩
  | none =>
    cases hb : m.lookup (initialismForm name) with
    | some t =>
      have hne : initialismForm name ≠ [] := by
        intro e
        rw [e, hm] at hb
        exact Option.noConfusion hb
      refine ⟨plainForm name, initialismForm name, initialismForm name, t,
        toGoNames_eq name, by simp [findFiled, toGoNames_eq, ha, hb], ?_, ?_⟩
      · constructor
        · intro e
          exact absurd e hne
        · rintro ⟨_, h2⟩
          rw [hb] at h2
          exact Option.noConfusion h2
      · intro _
        exact ⟨Or.inr rfl, hb⟩
    | none =>
      refine ⟨plainForm name, initialismForm name, [], none, toGoNames_eq name,
        by simp [findFiled, toGoNames_eq, ha, hb], ?_, ?_⟩
      · exact ⟨fun _ => ⟨ha, hb⟩, fun _ => rfl⟩
      · intro h
        exact absurd rfl h

/-- Witness of C18 on a map without an empty key: `"user_id"` resolves to the
non-empty key `"UserID"`, and `"name"` to the empty name. -/
theorem findFiled_empty_name_iff_witness :
    findFiled [(bytes "UserID", some 1)] (bytes "user_id") = some (bytes "UserID", some 1) ∧
      findFiled [(bytes "UserID", some 1)] (bytes "name") = some ([], none) ∧
      ∃ a b n t, toGoNames (bytes "name") = some (a, b) ∧
        findFiled [(bytes "UserID", some 1)] (bytes "name") = some (n, t) ∧
        (n = [] ↔ List.lookup a [(bytes "UserID", some 1)] = none ∧
          List.lookup b [(bytes "UserID", some 1)] = none) ∧
        (n ≠ [] → (n = a ∨ n = b) ∧
          List.lookup n [(bytes "UserID", some 1)] = some t) :=
  ⟨by decide, by decide,
   findFiled_empty_name_iff.1 Nat [(bytes "UserID", some 1)] (bytes "name") (by decide)⟩

/-! ## The claim about `isValueKind` -/

/-- C15: `isValueKind(kind)` is true exactly for Bool, the five Int and six Uint
kinds (Uintptr included), Float32, Float64, Complex64, Complex128, String and
Struct; it is false exactly for the other kinds: Slice, Map, Ptr, Chan, Func,
Interface, Array, UnsafePointer and Invalid. -/
theorem isValueKind_iff (kind : Kind) :
    (isValueKind kind = true ↔
      kind ∈ [Kind.Bool, Kind.Int, Kind.Int8, Kind.Int16, Kind.Int32, Kind.Int64,
        Kind.Uint, Kind.Uint8, Kind.Uint16, Kind.Uint32, Kind.Uint64, Kind.Uintptr,
        Kind.Float32, Kind.Float64, Kind.Complex64, Kind.Complex128,
        Kind.String, Kind.Struct]) ∧
      (isValueKind kind = false ↔
        kind ∈ [Kind.Slice, Kind.Map, Kind.Ptr, Kind.Chan, Kind.Func, Kind.Interface,
          Kind.Array, Kind.UnsafePointer, Kind.Invalid]) := by
  cases kind <;> decide

/-! ## The first loop of `scanRow` -/

theorem assignAt_append {α : Type} (A B : List α) (x y : α) :
    assignAt (A ++ x :: B) A.length y = some (A ++ y :: B) := by
  simp [assignAt]

theorem setupStep_localsAt {Ty : Type} [Inhabited Ty] (elem : Ty → Option Ty)
    (elementTypes ts : List Ty) (k : Nat) (p : Bool) :
    setupStep elem elementTypes (localsAt ts (k + 1)) ts.length p
      = (elementTypes[ts.length]?.bind fun t0 => derefType elem p t0).map
          fun t => localsAt (ts ++ [t]) k := by
  have hs : ∀ y : Option Nat,
      assignAt ((List.range ts.length).map some ++ none :: List.replicate k none) ts.length y
        = some ((List.range ts.length).map some ++ y :: List.replicate k none) := by
    intro y
    have := assignAt_append ((List.range ts.length).map some) (List.replicate k none) none y
    simpa using this
  have ht : ∀ (x y : Ty) (B : List Ty),
      assignAt (ts ++ x :: B) ts.length y = some (ts ++ y :: B) :=
    fun x y B => assignAt_append ts B x y
  have hr : (List.range (ts.length + 1)).map some ++ List.replicate k (none : Option Nat)
      = (List.range ts.length).map some ++ some ts.length :: List.replicate k none := by
    simp [List.range_succ]
  unfold setupStep
  cases he : elementTypes[ts.length]? with
  | none => simp
  | some t0 =>
    simp only [Option.some_bind, localsAt, List.replicate_succ, ht, hs, Option.map_some',
      List.length_append, List.length_singleton, hr, List.append_assoc, List.singleton_append]
    cases p with
    | false => simp [derefType]
    | true =>
      cases hel : elem t0 with
      | none => simp [derefType, hel]
      | some t => simp [derefType, hel, ht]

theorem setupLoop_localsAt {Ty : Type} [Inhabited Ty] (elem : Ty → Option Ty)
    (elementTypes : List Ty) (ps : List Bool) :
    ∀ ts : List Ty,
      setupLoop elem elementTypes ts.length ps (localsAt ts ps.length)
        = (columnTypes elem elementTypes ts.length ps).map
            fun us => localsAt (ts ++ us) 0 := by
  induction ps with
  | nil =>
    intro ts
    simp [setupLoop, columnTypes]
  | cons p ps ih =>
    intro ts
    simp only [setupLoop, columnTypes, List.length_cons, setupStep_localsAt]
    cases he : elementTypes[ts.length]? with
    | none => simp
    | some t0 =>
      cases hd : derefType elem p t0 with
      | none => simp [hd]
      | some t =>
        have := ih (ts ++ [t])
        simp only [List.length_append, List.length_singleton] at this
        simp [hd, this, Option.map_map, Function.comp_def]

theorem setupLoop_eq {Ty : Type} [Inhabited Ty] (elem : Ty → Option Ty)
    (elementTypes : List Ty) (isPtrs : List Bool) :
    setupLoop elem elementTypes 0 isPtrs (initLocals isPtrs.length)
      = (columnTypes elem elementTypes 0 isPtrs).map fun ts =>
          { srcs := (List.range ts.length).map some,
            refs := (List.range ts.length).map some,
            types := ts } := by
  have := setupLoop_localsAt elem elementTypes isPtrs []
  have hi : (localsAt ([] : List Ty) isPtrs.length) = initLocals isPtrs.length := by
    simp [localsAt, initLocals]
  rw [hi] at this
  simpa [localsAt] using this

theorem columnTypes_spec {Ty : Type} (elem : Ty → Option Ty) (elementTypes : List Ty)
    (ps : List Bool) :
    ∀ (i : Nat) (ts : List Ty), columnTypes elem elementTypes i ps = some ts →
      ts.length = ps.length ∧
      ∀ (j : Nat) (p : Bool), ps[j]? = some p →
        ∃ t0 t, elementTypes[i + j]? = some t0 ∧ derefType elem p t0 = some t ∧
          ts[j]? = some t := by
  induction ps with
  | nil =>
    intro i ts h
    simp only [columnTypes, Option.some.injEq] at h
    subst h
    simp
  | cons p ps ih =>
    intro i ts h
    simp only [columnTypes] at h
    cases he : elementTypes[i]? with
    | none => simp [he] at h
    | some t0 =>
      cases hd : derefType elem p t0 with
      | none => simp [he, hd] at h
      | some t =>
        cases hc : columnTypes elem elementTypes (i + 1) ps with
        | none => simp [he, hd, hc] at h
        | some us =>
          simp only [he, hd, hc, Option.some_bind, Option.map_some', Option.some.injEq] at h
          subst h
          obtain ⟨hlen, hall⟩ := ih (i + 1) us hc
          refine ⟨by simp [hlen], ?_⟩
          intro j q hq
          cases j with
          | zero =>
            simp only [List.getElem?_cons_zero, Option.some.injEq] at hq
            subst hq
            exact ⟨t0, t, by simpa using he, hd, by simp⟩
          | succ j =>
            simp only [List.getElem?_cons_succ] at hq
            obtain ⟨u0, u, h1, h2, h3⟩ := hall j q hq
            refine ⟨u0, u, ?_, h2, by simpa using h3⟩
            have : i + (j + 1) = i + 1 + j := by omega
            rw [this]
            exact h1

/-! ## The second loop of `scanRow` -/

theorem convertLoop_eq {ρ Ty Val Err σ : Type}
    (conv : Val → Option ρ → Bool → Ty → σ → Option (σ × Option Err))
    (values : List Val) (isPtrs : List Bool) (types : List Ty)
    (holders : Nat → Option ρ) (cols : List (Column Ty Val)) :
    ∀ (i : Nat) (d : σ) (calls : List (Call ρ Ty Val)),
      (∀ (j : Nat) (c : Column Ty Val), cols[j]? = some c →
        values[i + j]? = some c.1 ∧ isPtrs[i + j]? = some c.2.1 ∧
          types[i + j]? = some c.2.2) →
      convertLoop conv values isPtrs types holders i
          ((List.range' i cols.length).map some) d calls
        = (convertColumns conv holders i cols d).map fun d' =>
            (d', calls ++ columnCalls holders i cols) := by
  induction cols with
  | nil =>
    intro i d calls _
    simp [convertLoop, convertColumns, columnCalls]
  | cons c cols ih =>
    intro i d calls h
    obtain ⟨h1, h2, h3⟩ := h 0 c (by simp)
    simp only [Nat.add_zero] at h1 h2 h3
    have hrest : ∀ (j : Nat) (c' : Column Ty Val), cols[j]? = some c' →
        values[i + 1 + j]? = some c'.1 ∧ isPtrs[i + 1 + j]? = some c'.2.1 ∧
          types[i + 1 + j]? = some c'.2.2 := by
      intro j c' hj
      have := h (j + 1) c' (by simpa using hj)
      have e : i + (j + 1) = i + 1 + j := by omega
      rw [e] at this
      exact this
    simp only [List.length_cons, List.range'_succ, List.map_cons, convertLoop, h1, h2, h3,
      Option.some_bind, convertColumns, columnCalls]
    cases hc : conv c.1 (holders i) c.2.1 c.2.2 d with
    | none => simp
    | some r =>
      simp only [Option.some_bind]
      rw [ih (i + 1) r.1 _ hrest]
      simp [List.append_assoc]

theorem columnCalls_length {ρ Ty Val : Type} (holders : Nat → Option ρ)
    (cols : List (Column Ty Val)) :
    ∀ i : Nat, (columnCalls holders i cols).length = cols.length := by
  induction cols with
  | nil => intro i; rfl
  | cons c cols ih =>
    intro i
    simp [columnCalls, ih]

theorem columnCalls_getElem? {ρ Ty Val : Type} (holders : Nat → Option ρ)
    (cols : List (Column Ty Val)) :
    ∀ i j : Nat, (columnCalls holders i cols)[j]?
      = cols[j]?.map fun c => Call.convertAssign c.1 (holders (i + j)) c.2.1 c.2.2 := by
  induction cols with
  | nil => intro i j; simp [columnCalls]
  | cons c cols ih =>
    intro i j
    cases j with
    | zero => simp [columnCalls]
    | succ j =>
      have e : i + (j + 1) = i + 1 + j := by omega
      simp [columnCalls, ih, e]

theorem convertColumns_isSome {ρ Ty Val Err σ : Type}
    (conv : Val → Option ρ → Bool → Ty → σ → Option (σ × Option Err))
    (hret : ∀ v s p t d, conv v s p t d ≠ none)
    (holders : Nat → Option ρ) (cols : List (Column Ty Val)) :
    ∀ (i : Nat) (d : σ), ∃ d', convertColumns conv holders i cols d = some d' := by
  induction cols with
  | nil => intro i d; exact ⟨d, rfl⟩
  | cons c cols ih =>
    intro i d
    cases hc : conv c.1 (holders i) c.2.1 c.2.2 d with
    | none => exact absurd hc (hret _ _ _ _ _)
    | some r =>
      obtain ⟨d', hd⟩ := ih (i + 1) r.1
      exact ⟨d', by simp [convertColumns, hc, hd]⟩

theorem convertColumns_erase_result {ρ Ty Val Err σ : Type}
    (conv : Val → Option ρ → Bool → Ty → σ → Option (σ × Option Err))
    (holders : Nat → Option ρ) (cols : List (Column Ty Val)) :
    ∀ (i : Nat) (d : σ),
      convertColumns (eraseResult conv) holders i cols d
        = convertColumns conv holders i cols d := by
  induction cols with
  | nil => intro i d; rfl
  | cons c cols ih =>
    intro i d
    simp only [convertColumns, eraseResult]
    cases hc : conv c.1 (holders i) c.2.1 c.2.2 d with
    | none => simp
    | some r =>
      have := ih (i + 1) r.1
      simp only [eraseResult] at this
      simp [this]

theorem columns_getElem? {Ty Val : Type} (values : List Val) (isPtrs : List Bool)
    (types : List Ty) (j : Nat) (c : Column Ty Val)
    (h : (values.zip (isPtrs.zip types))[j]? = some c) :
    values[j]? = some c.1 ∧ isPtrs[j]? = some c.2.1 ∧ types[j]? = some c.2.2 := by
  obtain ⟨h1, h2⟩ := List.getElem?_zip_eq_some.mp h
  obtain ⟨h3, h4⟩ := List.getElem?_zip_eq_some.mp h2
  exact ⟨h1, h3, h4⟩

/-! ## `scanRow` after a successful read -/

theorem scanRow_success {ρ Ty Val Err σ : Type} [Inhabited Ty]
    (elem : Ty → Option Ty)
    (conv : Val → Option ρ → Bool → Ty → σ → Option (σ × Option Err))
    (rows : List (Option Nat) → Option Err × (Nat → Option ρ))
    (isPtrs : List Bool) (elementTypes : List Ty) (values : List Val) (dests : σ)
    (l : Locals Ty) (holders : Nat → Option ρ)
    (hsetup : setupLoop elem elementTypes 0 isPtrs (initLocals isPtrs.length) = some l)
    (hread : rows l.refs = (none, holders))
    (hV : isPtrs.length ≤ values.length) :
    l.refs = (List.range isPtrs.length).map some ∧
      l.srcs = (List.range isPtrs.length).map some ∧
      (values.zip (isPtrs.zip l.types)).length = isPtrs.length ∧
      (∀ (i : Nat) (p : Bool), isPtrs[i]? = some p →
        ∃ v t0 t, values[i]? = some v ∧ elementTypes[i]? = some t0 ∧
          derefType elem p t0 = some t ∧
          (values.zip (isPtrs.zip l.types))[i]? = some (v, p, t)) ∧
      scanRow elem conv rows isPtrs elementTypes values dests
        = (convertColumns conv holders 0 (values.zip (isPtrs.zip l.types)) dests).map
            fun d => { err := none, dests := d,
                       calls := Call.scan l.refs
                         :: columnCalls holders 0 (values.zip (isPtrs.zip l.types)) } := by
  have hs := hsetup
  rw [setupLoop_eq] at hs
  cases hc : columnTypes elem elementTypes 0 isPtrs with
  | none => simp [hc] at hs
  | some ts =>
    simp only [hc, Option.map_some', Option.some.injEq] at hs
    obtain ⟨hlen, hts⟩ := columnTypes_spec elem elementTypes isPtrs 0 ts hc
    have hrefs : l.refs = (List.range isPtrs.length).map some := by
      rw [← hs, hlen]
    have hsrcs : l.srcs = (List.range isPtrs.length).map some := by
      rw [← hs, hlen]
    have htypes : l.types = ts := by rw [← hs]
    have hcl : (values.zip (isPtrs.zip l.types)).length = isPtrs.length := by
      simp only [List.length_zip, htypes, hlen]
      omega
    refine ⟨hrefs, hsrcs, hcl, ?_, ?_⟩
    · intro i p hip
      have hi : i < isPtrs.length := by
        by_contra hcon
        rw [List.getElem?_eq_none (by omega)] at hip
        exact Option.noConfusion hip
      obtain ⟨t0, t, b1, b2, b3⟩ := hts i p hip
      simp only [Nat.zero_add] at b1
      have hv : values[i]? = some values[i] := List.getElem?_eq_getElem (by omega)
      refine ⟨values[i], t0, t, hv, b1, b2, ?_⟩
      rw [List.getElem?_zip_eq_some]
      refine ⟨hv, ?_⟩
      rw [List.getElem?_zip_eq_some]
      have b3' : l.types[i]? = some t := htypes.symm ▸ b3
      exact ⟨hip, b3'⟩
    · have hloop := convertLoop_eq conv values isPtrs l.types holders
        (values.zip (isPtrs.zip l.types)) 0 dests [Call.scan l.refs]
        (fun j c hj => by
          simpa using columns_getElem? values isPtrs l.types j c hj)
      rw [hcl] at hloop
      have hsr : l.srcs = (List.range' 0 isPtrs.length).map some := by
        rw [hsrcs, List.range_eq_range']
      unfold scanRow
      simp only [hsetup, Option.some_bind, hread]
      rw [hsr, hloop]
      cases convertColumns conv holders 0 (values.zip (isPtrs.zip l.types)) dests with
      | none => rfl
      | some d => rfl

/-! ## The claims about `scanRow` -/

/-- C12: when the read `rows.Scan(refs...)` is reached and fails with the error
`e`, `scanRow` returns exactly `e`; the only call it has made is the read, so
`convertAssign` is invoked for no column, and the destinations are as they
were. -/
theorem scanRow_read_error {ρ Ty Val Err σ : Type} [Inhabited Ty]
    (elem : Ty → Option Ty)
    (convertAssign : Val → Option ρ → Bool → Ty → σ → Option (σ × Option Err))
    (rows : List (Option Nat) → Option Err × (Nat → Option ρ))
    (isPtrs : List Bool) (elementTypes : List Ty) (values : List Val) (dests : σ)
    (l : Locals Ty) (e : Err) (holders : Nat → Option ρ)
    (hsetup : setupLoop elem elementTypes 0 isPtrs (initLocals isPtrs.length) = some l)
    (hread : rows l.refs = (some e, holders)) :
    scanRow elem convertAssign rows isPtrs elementTypes values dests
      = some { err := some e, dests := dests, calls := [Call.scan l.refs] } := by
  unfold scanRow
  simp only [hsetup, Option.some_bind, hread]

/-- Witness of C12: two columns and a read that fails with error `9`; not even
a converter that panics on every call is reached. -/
theorem scanRow_read_error_witness :
    scanRow exampleElem panickingConvert failingRead [false, true] [5, 107] [10, 11] []
      = some { err := some 9, dests := [], calls := [Call.scan [some 0, some 1]] } :=
  scanRow_read_error exampleElem panickingConvert failingRead [false, true] [5, 107]
    [10, 11] [] { srcs := [some 0, some 1], refs := [some 0, some 1], types := [5, 7] }
    9 (fun _ => none) (by decide) rfl

/-- C13 on the code: with one column whose holder the successful read leaves
empty (SQL NULL), `scanRow` does not skip the column.  The test `src == nil` is
on the pointer `srcs[0]`, which the first loop has set, so for every converter
`scanRow` calls `convertAssign(values[0], nil, false, elementTypes[0])`: the
destinations end as that call leaves them, and a panic of the call is a panic
of `scanRow`. -/
theorem scanRow_nil_holder_reaches_converter {ρ Ty Val Err σ : Type} [Inhabited Ty]
    (elem : Ty → Option Ty)
    (convertAssign : Val → Option ρ → Bool → Ty → σ → Option (σ × Option Err))
    (t : Ty) (v : Val) (dests : σ) :
    scanRow elem convertAssign (fun _ => (none, fun _ => none)) [false] [t] [v] dests
      = (convertAssign v none false t dests).map fun r =>
          { err := none, dests := r.1,
            calls := [Call.scan [some 0], Call.convertAssign v none false t] } := by
  simp only [scanRow, setupLoop, setupStep, initLocals, assignAt, convertLoop,
    List.length_cons, List.length_nil, List.replicate, List.getElem?_cons_zero,
    Option.some_bind, Nat.zero_add, Nat.lt_one_iff, if_true, List.set_cons_zero,
    Bool.false_eq_true, if_false, List.length_singleton, List.nil_append]
  cases convertAssign v none false t dests with
  | none => rfl
  | some r => rfl

/-- Counterexample to C14: two columns, the slices long enough, the read
reached and successful; the converter panics at its first call, `scanRow`
panics with it, and the converter is never invoked for column `1`. -/
theorem scanRow_panicking_converter :
    setupLoop exampleElem [5, 107] 0 [false, true] (initLocals 2)
        = some { srcs := [some 0, some 1], refs := [some 0, some 1], types := [5, 7] } ∧
      (exampleRead [some 0, some 1]).1 = none ∧
      scanRow exampleElem panickingConvert exampleRead [false, true] [5, 107] [10, 11] []
        = none := by
  decide

/-- C14, as amended: when the read is reached and succeeds (which needs
`elementTypes` to be at least as long as `isPtrs`) and `values` is at least as
long as `isPtrs`, the read is the first and only read call and receives the
`len(isPtrs)` fresh holders `0 .. len(isPtrs)-1`; then `convertAssign` is
called column by column, in increasing order of `i`, with `values[i]`, the
content of holder `i`, `isPtrs[i]`, and `elementTypes[i]` dereferenced one level
by `Elem` when `isPtrs[i]` is set and as it is otherwise, each call on the
destinations as the call before left them.  When every call returns, that is
one call per column and `scanRow` returns nil; when a call panics, `scanRow`
panics with it. -/
theorem scanRow_calls {ρ Ty Val Err σ : Type} [Inhabited Ty]
    (elem : Ty → Option Ty)
    (convertAssign : Val → Option ρ → Bool → Ty → σ → Option (σ × Option Err))
    (rows : List (Option Nat) → Option Err × (Nat → Option ρ))
    (isPtrs : List Bool) (elementTypes : List Ty) (values : List Val) (dests : σ)
    (l : Locals Ty) (holders : Nat → Option ρ)
    (hsetup : setupLoop elem elementTypes 0 isPtrs (initLocals isPtrs.length) = some l)
    (hread : rows l.refs = (none, holders))
    (hV : isPtrs.length ≤ values.length) :
    l.refs = (List.range isPtrs.length).map some ∧
      (columnCalls holders 0 (values.zip (isPtrs.zip l.types))).length = isPtrs.length ∧
      (∀ (i : Nat) (p : Bool), isPtrs[i]? = some p →
        ∃ v t0 t, values[i]? = some v ∧ elementTypes[i]? = some t0 ∧
          (if p then elem t0 else some t0) = some t ∧
          (values.zip (isPtrs.zip l.types))[i]? = some (v, p, t) ∧
          (columnCalls holders 0 (values.zip (isPtrs.zip l.types)))[i]?
            = some (Call.convertAssign v (holders i) p t)) ∧
      scanRow elem convertAssign rows isPtrs elementTypes values dests
        = (convertColumns convertAssign holders 0 (values.zip (isPtrs.zip l.types))
            dests).map
            fun d => { err := none, dests := d,
                       calls := Call.scan l.refs
                         :: columnCalls holders 0 (values.zip (isPtrs.zip l.types)) } := by
  obtain ⟨h1, _, h3, h4, h5⟩ :=
    scanRow_success elem convertAssign rows isPtrs elementTypes values dests l holders
      hsetup hread hV
  refine ⟨h1, by rw [columnCalls_length, h3], ?_, h5⟩
  intro i p hi
  obtain ⟨v, t0, t, a1, a2, a3, a4⟩ := h4 i p hi
  refine ⟨v, t0, t, a1, a2, by simpa [derefType] using a3, a4, ?_⟩
  rw [columnCalls_getElem?, a4]
  simp

/-- Witness of the amended C14: two columns, the second one a pointer column of
type `107`, whose element type is `7`; the converter records its arguments in
the state of the destinations. -/
theorem scanRow_calls_witness :
    scanRow exampleElem recordingConvert exampleRead [false, true] [5, 107] [10, 11] []
      = some { err := none,
               dests := [(10, none, false, 5), (11, some 41, true, 7)],
               calls := [Call.scan [some 0, some 1], Call.convertAssign 10 none false 5,
                 Call.convertAssign 11 (some 41) true 7] } :=
  (scanRow_calls exampleElem recordingConvert exampleRead [false, true]
      [5, 107] [10, 11] []
      { srcs := [some 0, some 1], refs := [some 0, some 1], types := [5, 7] }
      (fun h => if h = 0 then none else some (40 + h)) (by decide) rfl
      (by decide)).2.2.2.trans (by decide)

/-- Counterexample to C19: the read is reached and succeeds, and `scanRow` does
not return a nil error: with one column and no destination (`values` is empty)
it panics at `values[0]`, and with a destination and a converter that panics
it panics with the converter. -/
theorem scanRow_panics_after_read :
    setupLoop exampleElem [5] 0 [false] (initLocals 1)
        = some { srcs := [some 0], refs := [some 0], types := [5] } ∧
      (exampleRead [some 0]).1 = none ∧
      scanRow exampleElem recordingConvert exampleRead [false] [5] ([] : List Nat) [] = none ∧
      scanRow exampleElem panickingConvert exampleRead [false] [5] [10] [] = none :=
  ⟨by decide, by decide, by decide, by decide⟩

/-- C19, as amended: whenever the read succeeds, `values` has at least
`len(isPtrs)` entries and `convertAssign` does not panic, `scanRow` returns a
nil error whatever the calls return: all `len(isPtrs)` conversions
are made, the destinations are as the conversions leave them, and the outcome
is the same as with the converter whose results are all replaced by nil, so a
failed conversion stops nothing and changes no result. -/
theorem scanRow_ignores_converter {ρ Ty Val Err σ : Type} [Inhabited Ty]
    (elem : Ty → Option Ty)
    (convertAssign : Val → Option ρ → Bool → Ty → σ → Option (σ × Option Err))
    (rows : List (Option Nat) → Option Err × (Nat → Option ρ))
    (isPtrs : List Bool) (elementTypes : List Ty) (values : List Val) (dests : σ)
    (l : Locals Ty) (holders : Nat → Option ρ)
    (hsetup : setupLoop elem elementTypes 0 isPtrs (initLocals isPtrs.length) = some l)
    (hread : rows l.refs = (none, holders))
    (hV : isPtrs.length ≤ values.length)
    (hret : ∀ v s p t d, convertAssign v s p t d ≠ none) :
    ∃ out, scanRow elem convertAssign rows isPtrs elementTypes values dests = some out ∧
      out.err = none ∧
      out.calls = Call.scan l.refs
        :: columnCalls holders 0 (values.zip (isPtrs.zip l.types)) ∧
      out.calls.length = isPtrs.length + 1 ∧
      convertColumns convertAssign holders 0 (values.zip (isPtrs.zip l.types)) dests
        = some out.dests ∧
      scanRow elem (eraseResult convertAssign) rows isPtrs elementTypes values dests
        = some out := by
  obtain ⟨_, _, h3, _, h5⟩ :=
    scanRow_success elem convertAssign rows isPtrs elementTypes values dests l holders
      hsetup hread hV
  obtain ⟨_, _, _, _, h5'⟩ :=
    scanRow_success elem (eraseResult convertAssign) rows isPtrs elementTypes values dests
      l holders hsetup hread hV
  obtain ⟨d', hd⟩ := convertColumns_isSome convertAssign hret holders
    (values.zip (isPtrs.zip l.types)) 0 dests
  rw [convertColumns_erase_result, hd] at h5'
  rw [hd] at h5
  refine ⟨_, h5, rfl, rfl, ?_, hd, h5'⟩
  simp [columnCalls_length, h3]

/-- Witness of the amended C19: a converter that returns an error on every
column; both columns are converted and the returned error is nil. -/
theorem scanRow_ignores_converter_witness :
    scanRow exampleElem failingConvert exampleRead [false, true] [5, 107] [10, 11] []
        = some { err := none,
                 dests := [(10, none, false, 5), (11, some 41, true, 7)],
                 calls := [Call.scan [some 0, some 1], Call.convertAssign 10 none false 5,
                   Call.convertAssign 11 (some 41) true 7] } := by
  obtain ⟨out, h1, _, _, _, _, _⟩ :=
    scanRow_ignores_converter exampleElem failingConvert exampleRead [false, true]
      [5, 107] [10, 11] []
      { srcs := [some 0, some 1], refs := [some 0, some 1], types := [5, 7] }
      (fun h => if h = 0 then none else some (40 + h)) (by decide) rfl (by decide)
      (fun _ _ _ _ _ => by simp [failingConvert])
  have e : scanRow exampleElem failingConvert exampleRead [false, true] [5, 107] [10, 11] []
      = some { err := none,
               dests := [(10, none, false, 5), (11, some 41, true, 7)],
               calls := [Call.scan [some 0, some 1], Call.convertAssign 10 none false 5,
                 Call.convertAssign 11 (some 41) true 7] } := by decide
  rw [h1] at e ⊢
  exact e

end Osm
